import Mathlib

/-!
Shallow embedding of the client-side analysis orchestration and
quality-metrics aggregation subsystem of the GitDoc repository.

Numbers that the JavaScript source manipulates are modelled as rationals;
`jsRound10` models `Math.round(x * 10) / 10`.  Fields that may be absent
or null in the loosely-shaped backend data are modelled as `Option`.
-/

namespace GitDoc

/-- Per-file analysis record returned by the backend
(`analysisData.analysis` entries in QualityScore.jsx).  The two score
fields may be absent in the raw data, hence `Option`. -/
structure AnalysisEntry where
  file_path : String
  language : String
  complexity_score : Option ℚ
  documentation_quality : Option ℚ
deriving DecidableEq, Repr

/-- Kind tag of a recommendation (`type` field in QualityScore.jsx). -/
inductive RecKind where
  | warning
  | info
  | success
deriving DecidableEq, Repr

/-- One recommendation entry pushed by `calculateMetrics`. -/
structure Recommendation where
  kind : RecKind
  text : String
deriving DecidableEq, Repr

/-- Per-language aggregate (`languageStats[lang]` after the averaging
pass in QualityScore.jsx). -/
structure LangStat where
  count : ℕ
  avgComplexity : ℚ
  avgDoc : ℚ
deriving DecidableEq, Repr

/-- JavaScript `Math.round(x * 10) / 10`: round to one decimal place,
halves toward positive infinity. -/
def jsRound10 (q : ℚ) : ℚ := (⌊q * 10 + 1 / 2⌋ : ℚ) / 10

/-- Translation of `docCoverage` in QualityScore.jsx lines 26-30: mean of
`documentation_quality || 0` over the analysis entries, 0 when empty. -/
def docCoverage (analysis : List AnalysisEntry) : ℚ :=
  let scores := analysis.map (fun a => a.documentation_quality.getD 0)
  if scores.length = 0 then 0 else scores.sum / scores.length

/-- Translation of `avgComplexity` in QualityScore.jsx lines 33-38: mean of
`complexity_score || 0`, 0 when empty. -/
def avgComplexity (analysis : List AnalysisEntry) : ℚ :=
  let scores := analysis.map (fun a => a.complexity_score.getD 0)
  if scores.length = 0 then 0 else scores.sum / scores.length

/-- Translation of `maintainability` in QualityScore.jsx line 41. -/
def maintainability (analysis : List AnalysisEntry) : ℚ :=
  (docCoverage analysis + (10 - avgComplexity analysis)) / 2

/-- Boolean substring containment on character lists (JavaScript
`String.prototype.includes`). -/
def containsSub (pat : List Char) : List Char → Bool
  | [] => pat.isEmpty
  | c :: rest => pat.isPrefixOf (c :: rest) || containsSub pat rest

/-- True when the file path contains the substring "test" after
lowercasing (QualityScore.jsx lines 44-46). -/
def hasTestSubstring (s : String) : Bool :=
  containsSub "test".data (s.data.map Char.toLower)

/-- Number of analysis entries whose path contains "test". -/
def countTestFiles (analysis : List AnalysisEntry) : ℕ :=
  analysis.countP (fun a => hasTestSubstring a.file_path)

/-- Translation of `testCoverage` in QualityScore.jsx lines 47-48. -/
def testCoverage (analysis : List AnalysisEntry) (fileCount : ℕ) : ℚ :=
  if fileCount = 0 then 0
  else min ((countTestFiles analysis / (fileCount : ℚ)) * 100) 100

/-- The weighted overall-score formula of QualityScore.jsx lines 53-56. -/
def overallFormula (analysis : List AnalysisEntry) (fileCount : ℕ) : ℚ :=
  docCoverage analysis * (3 / 10) + (10 - avgComplexity analysis) * (3 / 10) +
    maintainability analysis * (2 / 10) +
    (testCoverage analysis fileCount / 10) * (2 / 10)

/-- Translation of `overallScore` in QualityScore.jsx lines 51-56:
`documentation?.quality_score || formula`.  A provided score of 0 is
falsy in JavaScript and falls through to the formula. -/
def overallRaw (analysis : List AnalysisEntry) (fileCount : ℕ)
    (providedOverallScore : Option ℚ) : ℚ :=
  match providedOverallScore with
  | some q => if q = 0 then overallFormula analysis fileCount else q
  | none => overallFormula analysis fileCount

/-- Recommendation pushed when documentation coverage is low. -/
def docWarnRec : Recommendation :=
  ⟨RecKind.warning, "Improve code documentation and comments"⟩

/-- Recommendation pushed when average complexity is high. -/
def complexityWarnRec : Recommendation :=
  ⟨RecKind.warning, "Reduce code complexity by refactoring large functions"⟩

/-- Recommendation pushed when estimated test coverage is low. -/
def testInfoRec : Recommendation :=
  ⟨RecKind.info, "Add more unit tests for better coverage"⟩

/-- The closing verdict recommendation of QualityScore.jsx lines 75-89. -/
def verdictRec (overallScore : ℚ) : Recommendation :=
  if overallScore ≥ 8 then
    ⟨RecKind.success, "Excellent code quality! Keep up the good work"⟩
  else if overallScore ≥ 6 then
    ⟨RecKind.info, "Good code quality with room for improvement"⟩
  else
    ⟨RecKind.warning, "Consider focusing on code quality improvements"⟩

/-- The recommendation sequence built by QualityScore.jsx lines 58-89:
the three domain rules are evaluated in order, each pushing at most one
entry, then exactly one verdict entry is pushed. -/
def recommendationList (analysis : List AnalysisEntry) (fileCount : ℕ)
    (providedOverallScore : Option ℚ) : List Recommendation :=
  (if docCoverage analysis < 5 then [docWarnRec] else []) ++
    (if avgComplexity analysis > 7 then [complexityWarnRec] else []) ++
    (if testCoverage analysis fileCount < 30 then [testInfoRec] else []) ++
    [verdictRec (overallRaw analysis fileCount providedOverallScore)]

/-- Translation of `languageStats` of QualityScore.jsx lines 92-106, viewed as a map
from language to its aggregate: the key is present exactly when some
entry has that language; count is the group size and the two averages
are the group means of the defaulted scores. -/
def languageStats (analysis : List AnalysisEntry) (lang : String) :
    Option LangStat :=
  let group := analysis.filter (fun a => a.language == lang)
  if group.length = 0 then none
  else
    some ⟨group.length,
      (group.map (fun a => a.complexity_score.getD 0)).sum / group.length,
      (group.map (fun a => a.documentation_quality.getD 0)).sum / group.length⟩

/-- The metrics object assembled by `setMetrics` in QualityScore.jsx
lines 108-118. -/
structure QualityMetrics where
  documentation_coverage : ℚ
  code_complexity : ℚ
  maintainability_score : ℚ
  test_coverage : ℚ
  overall_score : ℚ
  recommendations : List Recommendation
  languageStats : String → Option LangStat
  totalFiles : ℕ
  analyzedFiles : ℕ

/-- Translation of `calculateMetrics` of QualityScore.jsx lines 19-121, as a pure
function of the analysis entries, the file count and the optional
backend-provided overall score (`documentation?.quality_score`). -/
def computeMetrics (analysis : List AnalysisEntry) (fileCount : ℕ)
    (providedOverallScore : Option ℚ) : QualityMetrics where
  documentation_coverage := jsRound10 (docCoverage analysis)
  code_complexity := jsRound10 (avgComplexity analysis)
  maintainability_score := jsRound10 (maintainability analysis)
  test_coverage := jsRound10 (testCoverage analysis fileCount)
  overall_score := jsRound10 (overallRaw analysis fileCount providedOverallScore)
  recommendations := recommendationList analysis fileCount providedOverallScore
  languageStats := languageStats analysis
  totalFiles := fileCount
  analyzedFiles := analysis.length

/-- An analysis entry with its optional scores replaced by their
JavaScript defaults (`x || 0`): the entry the code effectively sees. -/
def fillEntry (a : AnalysisEntry) : AnalysisEntry :=
  { a with
    complexity_score := some (a.complexity_score.getD 0)
    documentation_quality := some (a.documentation_quality.getD 0) }

/-! ### Error formatting (services/api.js) -/

/-- The data part of an axios error response that the code reads:
`error.response.status` and `error.response.data.detail`. -/
structure ErrResponse where
  status : ℕ
  detail : Option String
deriving DecidableEq, Repr

/-- The shape of an error value as read by `formatError` and the api
service wrappers: `error.response`, `error.code`, `error.message`. -/
structure JsError where
  response : Option ErrResponse
  code : Option String
  message : String
deriving DecidableEq, Repr

/-- Translation of `formatError` of services/api.js lines 110-121. -/
def formatError (e : JsError) : String :=
  if e.response.elim false (fun r => r.status == 422) then
    "Invalid input data. Please check your repository URL."
  else if e.response.elim false (fun r => r.status == 404) then
    "Repository not found. Please check the URL and try again."
  else if e.response.elim false (fun r => r.status == 500) then
    "Server error. Please try again later."
  else if e.code == some "NETWORK_ERROR" then
    "Network error. Please check your connection and ensure the backend is running."
  else if e.message == "" then "An unexpected error occurred"
  else e.message

/-- The error thrown by `apiService.analyzeRepository` (services/api.js
lines 36-45) when the post fails with error `e`: a fresh `Error` whose
message is `error.response?.data?.detail || "Failed to analyze
repository"`; the fresh error carries no `response` and no `code`. -/
def analyzeRepositoryThrown (e : JsError) : JsError :=
  { response := none
    code := none
    message :=
      match e.response.bind (fun r => r.detail) with
      | some d => if d = "" then "Failed to analyze repository" else d
      | none => "Failed to analyze repository" }

/-- The user-facing message set by `handleAnalyzeRepo` in App.js lines
42-58 when the backend call fails with error `e`: it formats the error
rethrown by `apiService.analyzeRepository`. -/
def handleAnalyzeRepoMessage (e : JsError) : String :=
  formatError (analyzeRepositoryThrown e)

/-! ### Repository reference validation (services/api.js, RepoInput.jsx) -/

/-- Character class `[a-zA-Z0-9_.-]` of the three GitHub URL patterns. -/
def nameChar (c : Char) : Bool :=
  (c ≥ 'a' && c ≤ 'z') || (c ≥ 'A' && c ≤ 'Z') || (c ≥ '0' && c ≤ '9') ||
    c == '_' || c == '.' || c == '-'

/-- One-or-more repetition of the name character class. -/
def isNameSeg (cs : List Char) : Bool :=
  !cs.isEmpty && cs.all nameChar

/-- JavaScript `String.prototype.trim`: strip whitespace from both ends
of a character list. -/
def listTrim (cs : List Char) : List Char :=
  ((cs.dropWhile Char.isWhitespace).reverse.dropWhile Char.isWhitespace).reverse

/-- JavaScript `String.prototype.split` with a single-character
separator, on character lists.  Splitting the empty list yields `[[]]`,
matching `"".split("/") = [""]`. -/
def splitOnCharList (sep : Char) : List Char → List (List Char)
  | [] => [[]]
  | c :: rest =>
    if c = sep then [] :: splitOnCharList sep rest
    else
      match splitOnCharList sep rest with
      | [] => [[c]]
      | s :: ss => (c :: s) :: ss

/-- Strip a literal prefix from a character list, returning the
remainder when the prefix is present. -/
def dropLit : List Char → List Char → Option (List Char)
  | [], cs => some cs
  | _ :: _, [] => none
  | p :: ps, c :: cs => if p = c then dropLit ps cs else none

/-- Pattern `^https:\/\/github\.com\/[a-zA-Z0-9_.-]+\/[a-zA-Z0-9_.-]+\/?$`
(services/api.js line 125). -/
def matchWebPat (cs : List Char) : Bool :=
  match dropLit "https://github.com/".data cs with
  | none => false
  | some rest =>
    match splitOnCharList '/' rest with
    | [owner, repo] => isNameSeg owner && isNameSeg repo
    | [owner, repo, tail] => isNameSeg owner && isNameSeg repo && tail.isEmpty
    | _ => false

/-- Repetition `[a-zA-Z0-9_.-]+` followed by a literal `.git` at the end
of the segment. -/
def isGitSeg (cs : List Char) : Bool :=
  List.isSuffixOf ".git".data cs &&
    isNameSeg (cs.take (cs.length - 4))

/-- Pattern `^git@github\.com:[a-zA-Z0-9_.-]+\/[a-zA-Z0-9_.-]+\.git$`
(services/api.js line 126). -/
def matchSshPat (cs : List Char) : Bool :=
  match dropLit "git@github.com:".data cs with
  | none => false
  | some rest =>
    match splitOnCharList '/' rest with
    | [owner, repo] => isNameSeg owner && isGitSeg repo
    | _ => false

/-- Pattern `^https:\/\/github\.com\/[a-zA-Z0-9_.-]+\/[a-zA-Z0-9_.-]+\.git$`
(services/api.js line 127). -/
def matchWebGitPat (cs : List Char) : Bool :=
  match dropLit "https://github.com/".data cs with
  | none => false
  | some rest =>
    match splitOnCharList '/' rest with
    | [owner, repo] => isNameSeg owner && isGitSeg repo
    | _ => false

/-- Translation of `validateGitHubUrl` of services/api.js lines 123-131: the trimmed
reference must match one of the three fixed patterns. -/
def validateGitHubUrl (url : String) : Bool :=
  let cs := listTrim url.data
  matchWebPat cs || matchSshPat cs || matchWebGitPat cs

/-- Helper for `extractRepoInfo`: given the text following an occurrence
of `github.com/`, capture `([^\/]+)\/([^\/\.]+)` greedily. -/
def captureOwnerRepo (cs : List Char) : Option (List Char × List Char) :=
  let owner := cs.takeWhile (fun c => c ≠ '/')
  let rest := cs.drop owner.length
  match rest with
  | '/' :: rest2 =>
    let repo := rest2.takeWhile (fun c => c ≠ '/' && c ≠ '.')
    if owner.isEmpty || repo.isEmpty then none else some (owner, repo)
  | _ => none

/-- Translation of `extractRepoInfo` of services/api.js lines 133-142: the regex
`/github\.com\/([^\/]+)\/([^\/\.]+)/` searched anywhere in the string,
taking the leftmost occurrence at which the whole pattern matches. -/
def extractRepoInfo : List Char → Option (List Char × List Char)
  | [] => none
  | c :: cs =>
    match dropLit "github.com/".data (c :: cs) with
    | some rest =>
      match captureOwnerRepo rest with
      | some r => some r
      | none => extractRepoInfo cs
    | none => extractRepoInfo cs

/-- The request body assembled by `handleSubmit` in RepoInput.jsx. -/
structure RepoRequest where
  repo_url : String
  branch : String
  repo_name : String
deriving DecidableEq, Repr

/-- Translation of `handleSubmit` of RepoInput.jsx lines 18-28: when the reference is
invalid or a submission is already loading, nothing happens (`none`:
no state change, no network call); otherwise the analysis request is
issued with the trimmed URL, the branch (defaulting to "main" when
empty) and the extracted `owner/repo` name. -/
def handleSubmit (repoUrl : String) (branch : String) (isLoading : Bool) :
    Option RepoRequest :=
  if validateGitHubUrl repoUrl && !isLoading then
    some
      { repo_url := String.mk (listTrim repoUrl.data)
        branch := if branch = "" then "main" else branch
        repo_name :=
          match extractRepoInfo repoUrl.data with
          | some (owner, repo) => String.mk (owner ++ '/' :: repo)
          | none => "unknown" }
  else none

/-! ### Selection / explanation controller (CodeExplorer component) -/

/-- The fields of a selected file node that `explainCode` reads. -/
structure SelFile where
  path : String
  language : String
deriving DecidableEq, Repr

/-- The body of a `/explain-code` request (CodeExplorer lines 58-63). -/
structure ExplainRequest where
  file_path : String
  code_snippet : String
  language : String
  context : String
deriving DecidableEq, Repr

/-- An explanation payload as rendered by the component. -/
structure Explanation where
  explanation : String
  key_concepts : List String
  best_practices : List String
  potential_issues : List String
deriving DecidableEq, Repr

/-- The fixed fallback payload installed on a failed explanation
request (CodeExplorer lines 67-72). -/
def fallbackExplanation : Explanation :=
  ⟨"Failed to generate explanation. Please try again.", [], [], []⟩

/-- The component state of CodeExplorer that the selection/explanation
lifecycle touches, plus the set of in-flight explanation requests
(each tagged with an issue identifier). -/
structure ExplorerState where
  selectedFile : Option SelFile
  selectedCode : String
  explanation : Option Explanation
  isExplaining : Bool
  pending : List (ℕ × ExplainRequest)
  nextId : ℕ
deriving DecidableEq, Repr

/-- Initial CodeExplorer state (useState initialisers). -/
def initExplorerState : ExplorerState :=
  ⟨none, "", none, false, [], 0⟩

/-- Events of one session: the user selects a file, the editor reports
a (possibly empty) code selection, the user clicks "Explain Selected",
or the response for an in-flight request with the given identifier is
delivered (`some payload` on success, `none` on failure). -/
inductive ExplorerEvent where
  | selectFile (f : SelFile)
  | editorSelection (s : String)
  | explainClick
  | deliver (id : ℕ) (result : Option Explanation)
deriving DecidableEq, Repr

/-- One step of the CodeExplorer event loop, translated from
CodeExplorer lines 36-76: `selectFile` resets the explanation and the
selected code; `explainCode` guards on a non-empty selection and an
existing file, then issues a request; when an issued request's
response is delivered, the continuation after `await` runs
unconditionally - the response payload (or the fallback payload on
failure) is installed regardless of the selection current at delivery
time. -/
def explorerStep (st : ExplorerState) : ExplorerEvent → ExplorerState
  | .selectFile f =>
    { st with selectedFile := some f, explanation := none, selectedCode := "" }
  | .editorSelection s => { st with selectedCode := s }
  | .explainClick =>
    if st.selectedCode = "" then st
    else
      match st.selectedFile with
      | none => st
      | some f =>
        { st with
          isExplaining := true
          pending := st.pending ++
            [(st.nextId,
              ⟨f.path, st.selectedCode, f.language,
                "From file " ++ f.path ++ " in repository analysis"⟩)]
          nextId := st.nextId + 1 }
  | .deliver id result =>
    if (st.pending.lookup id).isSome then
      { st with
        pending := st.pending.filter (fun p => p.1 ≠ id)
        explanation := some (result.getD fallbackExplanation)
        isExplaining := false }
    else st

/-- Run a CodeExplorer session from the initial state. -/
def runExplorer (events : List ExplorerEvent) : ExplorerState :=
  events.foldl explorerStep initExplorerState

/-! ### File tree construction (CodeExplorer, `buildFileTree`) -/

/-- A file record from `analysisData.files`. -/
structure FileRecord where
  path : String
  content : String
  language : String
  size : ℕ
deriving DecidableEq, Repr

/-- A node of the browsing tree built by `buildFileTree`: a file leaf
or a folder owning a finite association of segment names to children
(JavaScript object keys, in insertion order). -/
inductive TreeNode where
  | file (name path content language : String) (size : ℕ) : TreeNode
  | folder (name : String) (children : List (String × TreeNode)) : TreeNode

/-- Lookup of `children[part]` on the child association. -/
def lookupChild : List (String × TreeNode) → String → Option TreeNode
  | [], _ => none
  | (k, v) :: rest, part => if k = part then some v else lookupChild rest part

/-- Assignment `children[part] = v` on the child association: replace
the first binding of the key in place, or append a new binding. -/
def setChild : List (String × TreeNode) → String → TreeNode →
    List (String × TreeNode)
  | [], part, v => [(part, v)]
  | (k, w) :: rest, part, v =>
    if k = part then (part, v) :: rest else (k, w) :: setChild rest part v

/-- The per-file insertion loop of `buildFileTree` (CodeExplorer lines
347-372).  Walking a path segment: at the final segment a file node is
assigned (replacing whatever was there); at a non-final segment a
missing child is created as a folder before descending.  When the walk
lands on a file node, the source dereferences `current.children` of an
object that has no `children` property, a TypeError: modelled as
`none`. -/
def insertFile : List String → TreeNode → FileRecord → Option TreeNode
  | _, .file _ _ _ _ _, _ => none
  | [], .folder n ch, _ => some (.folder n ch)
  | [part], .folder n ch, f =>
    some (.folder n
      (setChild ch part (.file part f.path f.content f.language f.size)))
  | part :: p2 :: rest, .folder n ch, f =>
    (insertFile (p2 :: rest) ((lookupChild ch part).getD (.folder part [])) f).map
      (fun c => .folder n (setChild ch part c))

/-- JavaScript `path.split("/")`. -/
def splitPath (s : String) : List String :=
  (splitOnCharList '/' s.data).map String.mk

/-- Translation of `buildFileTree` of CodeExplorer lines 344-375: fold the insertion
loop over the file list starting from the synthetic root folder.  The
result is `none` exactly when some insertion throws. -/
def buildFileTree (files : List FileRecord) : Option TreeNode :=
  files.foldlM (fun t f => insertFile (splitPath f.path) t f)
    (TreeNode.folder "root" [])

mutual

/-- Positions (key paths from the root) of the file leaves of a tree;
a file node itself sits at the empty position. -/
def filePaths : TreeNode → List (List String)
  | .file _ _ _ _ _ => [[]]
  | .folder _ ch => filePathsL ch

/-- Positions of file leaves below a child association. -/
def filePathsL : List (String × TreeNode) → List (List String)
  | [] => []
  | (k, c) :: rest => (filePaths c).map (fun p => k :: p) ++ filePathsL rest

end

mutual

/-- Positions of the folder nodes strictly below the given node. -/
def folderPaths : TreeNode → List (List String)
  | .file _ _ _ _ _ => []
  | .folder _ ch => folderPathsL ch

/-- Folder positions contributed by one child bound at key `k`: a
folder child contributes its own position and its descendants, a file
child contributes nothing. -/
def folderPathsAt : String → TreeNode → List (List String)
  | _, .file _ _ _ _ _ => []
  | k, .folder _ ch2 => [k] :: (folderPathsL ch2).map (fun p => k :: p)

/-- Positions of folder nodes within a child association. -/
def folderPathsL : List (String × TreeNode) → List (List String)
  | [] => []
  | (k, c) :: rest => folderPathsAt k c ++ folderPathsL rest

end

mutual

/-- Every folder in the tree binds each key at most once (true of
JavaScript object keys, and preserved by `setChild`). -/
def keysOk : TreeNode → Prop
  | .file _ _ _ _ _ => True
  | .folder _ ch => ((ch.map Prod.fst).Nodup ∧ keysOkL ch)

/-- Key discipline for every tree in a child association. -/
def keysOkL : List (String × TreeNode) → Prop
  | [] => True
  | (_, c) :: rest => keysOk c ∧ keysOkL rest

end

/-- The nonempty proper prefixes of a path's segment list, shortest
first: the positions of the intermediate folders the path requires. -/
def properPrefixes : List String → List (List String)
  | [] => []
  | [_] => []
  | s :: t :: rest => [s] :: (properPrefixes (t :: rest)).map (fun p => s :: p)

/-- No file's segment path is a proper prefix of another file's segment
path (duplicate paths are still allowed). -/
def PrefixFree (files : List FileRecord) : Prop :=
  ∀ g ∈ files, ∀ f ∈ files,
    ¬ (splitPath g.path <+: splitPath f.path ∧ splitPath g.path ≠ splitPath f.path)

/-- The files' segment paths are pairwise prefix-incomparable: no two
list entries have equal paths and neither is a prefix of the other. -/
def SeparatedPaths (files : List FileRecord) : Prop :=
  (files.map fun f => splitPath f.path).Pairwise
    fun p q => ¬ p <+: q ∧ ¬ q <+: p

end GitDoc

namespace GitDoc

/-! ## Helper lemmas -/

theorem jsRound10_eq (q : ℚ) (n : ℤ) (h1 : (n : ℚ) ≤ q * 10 + 1 / 2)
    (h2 : q * 10 + 1 / 2 < n + 1) : jsRound10 q = (n : ℚ) / 10 := by
  rw [jsRound10, Int.floor_eq_iff.2 ⟨h1, by exact_mod_cast h2⟩]

theorem jsRound10_int (m : ℤ) : jsRound10 (m : ℚ) = m := by
  have h := jsRound10_eq (m : ℚ) (10 * m) (by push_cast; linarith)
    (by push_cast; linarith)
  rw [h]; push_cast; ring

theorem docCoverage_nil : docCoverage [] = 0 := by simp [docCoverage]

theorem avgComplexity_nil : avgComplexity [] = 0 := by simp [avgComplexity]

theorem maintainability_nil : maintainability [] = 5 := by
  rw [maintainability, docCoverage_nil, avgComplexity_nil]; norm_num

theorem testCoverage_fileCount_zero (a : List AnalysisEntry) :
    testCoverage a 0 = 0 := by simp [testCoverage]

theorem overallFormula_nil : overallFormula [] 0 = 4 := by
  rw [overallFormula, docCoverage_nil, avgComplexity_nil, maintainability_nil,
    testCoverage_fileCount_zero]
  norm_num

theorem jsRound10_five : jsRound10 5 = 5 := by
  have h := jsRound10_int 5; push_cast at h; exact h

theorem jsRound10_four : jsRound10 4 = 4 := by
  have h := jsRound10_int 4; push_cast at h; exact h

theorem jsRound10_zero : jsRound10 0 = 0 := by
  have h := jsRound10_int 0; push_cast at h; exact h

/-! ## Claims -/

/-- C1.  The spec requires a stale-response guard: after selecting file
A, requesting an explanation, and selecting file B before the response
arrives, the response for A must be discarded on arrival.  The code has
no such guard: `explainCode` installs the response unconditionally when
the `await` resumes.  This theorem runs exactly that scenario through
the translated event loop: just before delivery the explanation is
`none` (the `selectFile` reset), and on delivery of A's response the
state transitions to an Explained state carrying A's payload while file
B is selected - the transition the spec forbids. -/
theorem stale_explanation_applied :
    (runExplorer
        [.selectFile ⟨"a.js", "javascript"⟩, .editorSelection "const x = 1",
          .explainClick, .selectFile ⟨"b.js", "javascript"⟩]).explanation
      = none ∧
    (runExplorer
        [.selectFile ⟨"a.js", "javascript"⟩, .editorSelection "const x = 1",
          .explainClick, .selectFile ⟨"b.js", "javascript"⟩,
          .deliver 0 (some ⟨"explanation of a.js", [], [], []⟩)]).selectedFile
      = some ⟨"b.js", "javascript"⟩ ∧
    (runExplorer
        [.selectFile ⟨"a.js", "javascript"⟩, .editorSelection "const x = 1",
          .explainClick, .selectFile ⟨"b.js", "javascript"⟩,
          .deliver 0 (some ⟨"explanation of a.js", [], [], []⟩)]).explanation
      = some ⟨"explanation of a.js", [], [], []⟩ := by
  refine ⟨rfl, rfl, rfl⟩

/-- C3.  The claim says a failed submission's user-facing message is
chosen by status class (422/404/500).  In the code
`apiService.analyzeRepository` rethrows a fresh `Error` that carries no
`response`, so `formatError` in `handleAnalyzeRepo` can never see the
status: a 422 failure with a backend detail shows the detail text, a
500 failure without detail shows the generic analyze message - never
the fixed status-class texts. -/
theorem status_mapping_unreachable :
    handleAnalyzeRepoMessage ⟨some ⟨422, some "unprocessable"⟩, none, "Request failed"⟩
      = "unprocessable" ∧
    "unprocessable" ≠ "Invalid input data. Please check your repository URL." ∧
    handleAnalyzeRepoMessage ⟨some ⟨404, none⟩, none, "Request failed"⟩
      = "Failed to analyze repository" ∧
    handleAnalyzeRepoMessage ⟨some ⟨500, none⟩, none, "Request failed"⟩
      = "Failed to analyze repository" ∧
    formatError ⟨some ⟨422, some "unprocessable"⟩, none, "Request failed"⟩
      = "Invalid input data. Please check your repository URL." := by
  refine ⟨rfl, by decide, rfl, rfl, rfl⟩

/-- C2 counterexample.  The claim asserts `computeMetrics([], 0)` yields
maintainability 0 and overall 0; on the code the empty mean of
complexity is 0, so maintainability is (0 + (10 - 0)) / 2 = 5 and the
weighted overall score is 4. -/
theorem computeMetrics_empty_not_all_zero :
    (computeMetrics [] 0 none).maintainability_score ≠ 0 ∧
    (computeMetrics [] 0 none).overall_score ≠ 0 := by
  constructor
  · show jsRound10 (maintainability []) ≠ 0
    rw [maintainability_nil, jsRound10_five]; norm_num
  · show jsRound10 (overallRaw [] 0 none) ≠ 0
    rw [overallRaw, overallFormula_nil, jsRound10_four]; norm_num

/-- C2 amended.  `computeMetrics([], 0)` with no backend-provided score
returns documentation coverage 0, complexity 0, test coverage 0,
maintainability 5, overall score 4, and the non-empty recommendation
list [documentation warning, test info, low-score warning verdict]. -/
theorem computeMetrics_empty_spec :
    (computeMetrics [] 0 none).documentation_coverage = 0 ∧
    (computeMetrics [] 0 none).code_complexity = 0 ∧
    (computeMetrics [] 0 none).test_coverage = 0 ∧
    (computeMetrics [] 0 none).maintainability_score = 5 ∧
    (computeMetrics [] 0 none).overall_score = 4 ∧
    (computeMetrics [] 0 none).recommendations =
      [docWarnRec, testInfoRec,
        ⟨RecKind.warning, "Consider focusing on code quality improvements"⟩] := by
  refine ⟨?_, ?_, ?_, ?_, ?_, ?_⟩
  · show jsRound10 (docCoverage []) = 0
    rw [docCoverage_nil, jsRound10_zero]
  · show jsRound10 (avgComplexity []) = 0
    rw [avgComplexity_nil, jsRound10_zero]
  · show jsRound10 (testCoverage [] 0) = 0
    rw [testCoverage_fileCount_zero, jsRound10_zero]
  · show jsRound10 (maintainability []) = 5
    rw [maintainability_nil, jsRound10_five]
  · show jsRound10 (overallRaw [] 0 none) = 4
    rw [overallRaw, overallFormula_nil, jsRound10_four]
  · show recommendationList [] 0 none = _
    rw [recommendationList, docCoverage_nil, avgComplexity_nil,
      testCoverage_fileCount_zero, overallRaw, overallFormula_nil, verdictRec]
    norm_num

/-- C5 counterexample.  The claim says a backend-provided overall score
is returned exactly, including when it is 0.  A provided score of 0 is
falsy in `documentation?.quality_score || formula`, so the formula is
used instead: on empty analysis with file count 0 the result is 4, not
0. -/
theorem providedScore_zero_not_returned :
    (computeMetrics [] 0 (some 0)).overall_score ≠ 0 := by
  show jsRound10 (overallRaw [] 0 (some 0)) ≠ 0
  have h : overallRaw [] 0 (some 0) = 4 := by
    rw [overallRaw]; simp [overallFormula_nil]
  rw [h, jsRound10_four]; norm_num

/-- C5 amended.  A backend-provided overall score takes precedence
exactly when it is nonzero (the JavaScript truthiness test); a provided
0 and an absent score both fall back to the weighted formula.  The
returned field carries the standard one-decimal rounding. -/
theorem providedScore_precedence (a : List AnalysisEntry) (n : ℕ) :
    (∀ q : ℚ, q ≠ 0 →
      (computeMetrics a n (some q)).overall_score = jsRound10 q) ∧
    (computeMetrics a n (some 0)).overall_score
      = jsRound10 (overallFormula a n) ∧
    (computeMetrics a n none).overall_score
      = jsRound10 (overallFormula a n) := by
  refine ⟨fun q hq => ?_, ?_, rfl⟩
  · show jsRound10 (overallRaw a n (some q)) = jsRound10 q
    rw [overallRaw, if_neg hq]
  · show jsRound10 (overallRaw a n (some 0)) = jsRound10 (overallFormula a n)
    rw [overallRaw, if_pos rfl]

/-- C5 witness: a nonzero provided score of 7 is returned (rounded). -/
theorem providedScore_precedence_witness :
    (computeMetrics [] 0 (some 7)).overall_score = jsRound10 7 :=
  (providedScore_precedence [] 0).1 7 (by norm_num)

/-- C7.  Submission is rejected locally (no request is issued) whenever
the repository reference fails the three fixed patterns, and the
spec's three example references validate as claimed: the plain GitHub
web URL and the SSH-style reference are accepted, the non-GitHub URL is
rejected. -/
theorem submit_validation :
    (∀ url branch loading, validateGitHubUrl url = false →
      handleSubmit url branch loading = none) ∧
    validateGitHubUrl "https://github.com/acme/widgets" = true ∧
    validateGitHubUrl "git@github.com:acme/widgets.git" = true ∧
    validateGitHubUrl "https://example.com/acme/widgets" = false := by
  refine ⟨fun url branch loading h => ?_, rfl, rfl, rfl⟩
  rw [handleSubmit, h]
  simp

/-- C7 witness: the rejected example reference yields no request. -/
theorem submit_validation_witness :
    handleSubmit "https://example.com/acme/widgets" "main" false = none :=
  submit_validation.1 "https://example.com/acme/widgets" "main" false rfl

theorem concat_shape_spec {α} (d : List α) (v : α) :
    d ++ [v] ≠ [] ∧ (d ++ [v]).getLast? = some v ∧ (d ++ [v]).dropLast = d :=
  ⟨by simp, List.getLast?_concat _, List.dropLast_concat⟩

/-- C8.  The recommendation sequence is always non-empty; its last
entry is exactly the single verdict (success when the raw overall
score is at least 8, info when at least 6, warning otherwise); and the
entries before it are precisely the triggered domain rules -
documentation warning when coverage is below 5, complexity warning when
above 7, test info when coverage is below 30 - in that fixed order. -/
theorem recommendations_shape (a : List AnalysisEntry) (n : ℕ) (q : Option ℚ) :
    (computeMetrics a n q).recommendations ≠ [] ∧
    (computeMetrics a n q).recommendations.getLast?
      = some (verdictRec (overallRaw a n q)) ∧
    (computeMetrics a n q).recommendations.dropLast =
      (if docCoverage a < 5 then [docWarnRec] else []) ++
        (if avgComplexity a > 7 then [complexityWarnRec] else []) ++
        (if testCoverage a n < 30 then [testInfoRec] else []) := by
  have hrec : (computeMetrics a n q).recommendations
      = recommendationList a n q := rfl
  rw [hrec, recommendationList]
  exact concat_shape_spec _ _

theorem docCoverage_perm {l₁ l₂ : List AnalysisEntry} (h : l₁.Perm l₂) :
    docCoverage l₁ = docCoverage l₂ := by
  simp only [docCoverage]
  rw [(h.map (fun a => a.documentation_quality.getD 0)).sum_eq,
    List.length_map, List.length_map, h.length_eq]

theorem avgComplexity_perm {l₁ l₂ : List AnalysisEntry} (h : l₁.Perm l₂) :
    avgComplexity l₁ = avgComplexity l₂ := by
  simp only [avgComplexity]
  rw [(h.map (fun a => a.complexity_score.getD 0)).sum_eq,
    List.length_map, List.length_map, h.length_eq]

theorem maintainability_perm {l₁ l₂ : List AnalysisEntry} (h : l₁.Perm l₂) :
    maintainability l₁ = maintainability l₂ := by
  rw [maintainability, maintainability, docCoverage_perm h, avgComplexity_perm h]

theorem testCoverage_perm {l₁ l₂ : List AnalysisEntry} (h : l₁.Perm l₂)
    (n : ℕ) : testCoverage l₁ n = testCoverage l₂ n := by
  unfold testCoverage countTestFiles
  rw [h.countP_eq]

theorem overallFormula_perm {l₁ l₂ : List AnalysisEntry} (h : l₁.Perm l₂)
    (n : ℕ) : overallFormula l₁ n = overallFormula l₂ n := by
  unfold overallFormula
  rw [docCoverage_perm h, avgComplexity_perm h, maintainability_perm h,
    testCoverage_perm h]

theorem overallRaw_perm {l₁ l₂ : List AnalysisEntry} (h : l₁.Perm l₂)
    (n : ℕ) (q : Option ℚ) : overallRaw l₁ n q = overallRaw l₂ n q := by
  unfold overallRaw
  cases q with
  | none => exact overallFormula_perm h n
  | some v => rw [overallFormula_perm h]

theorem recommendationList_perm {l₁ l₂ : List AnalysisEntry} (h : l₁.Perm l₂)
    (n : ℕ) (q : Option ℚ) :
    recommendationList l₁ n q = recommendationList l₂ n q := by
  unfold recommendationList
  rw [docCoverage_perm h, avgComplexity_perm h, testCoverage_perm h,
    overallRaw_perm h]

theorem languageStats_perm {l₁ l₂ : List AnalysisEntry} (h : l₁.Perm l₂) :
    languageStats l₁ = languageStats l₂ := by
  funext lang
  simp only [languageStats]
  have hf := h.filter (fun a => a.language == lang)
  rw [hf.length_eq, (hf.map (fun a => a.complexity_score.getD 0)).sum_eq,
    (hf.map (fun a => a.documentation_quality.getD 0)).sum_eq]

/-- C9.  `computeMetrics` is invariant under any permutation of the
analysis sequence: all five rounded scores, the recommendation
sequence, the language statistics viewed as a map, and the two counts
coincide. -/
theorem computeMetrics_perm (l₁ l₂ : List AnalysisEntry) (n : ℕ)
    (q : Option ℚ) (h : l₁.Perm l₂) :
    computeMetrics l₁ n q = computeMetrics l₂ n q := by
  unfold computeMetrics
  rw [docCoverage_perm h, avgComplexity_perm h, maintainability_perm h,
    testCoverage_perm h, overallRaw_perm h, recommendationList_perm h,
    languageStats_perm h, h.length_eq]

/-- C9 witness: swapping two concrete analysis entries leaves the
metrics unchanged. -/
theorem computeMetrics_perm_witness :
    computeMetrics [⟨"a.js", "javascript", some 3, some 6⟩,
        ⟨"b.py", "python", some 8, some 2⟩] 2 none
      = computeMetrics [⟨"b.py", "python", some 8, some 2⟩,
        ⟨"a.js", "javascript", some 3, some 6⟩] 2 none :=
  computeMetrics_perm _ _ 2 none (by decide)

theorem fillEntry_doc (a : AnalysisEntry) :
    (fillEntry a).documentation_quality.getD 0
      = a.documentation_quality.getD 0 := by
  simp [fillEntry]

theorem fillEntry_cpx (a : AnalysisEntry) :
    (fillEntry a).complexity_score.getD 0 = a.complexity_score.getD 0 := by
  simp [fillEntry]

theorem fillEntry_path (a : AnalysisEntry) :
    (fillEntry a).file_path = a.file_path := rfl

theorem fillEntry_lang (a : AnalysisEntry) :
    (fillEntry a).language = a.language := rfl

theorem docCoverage_fill (l : List AnalysisEntry) :
    docCoverage (l.map fillEntry) = docCoverage l := by
  simp only [docCoverage, List.map_map]
  have : ((fun a : AnalysisEntry => a.documentation_quality.getD 0) ∘ fillEntry)
      = fun a => a.documentation_quality.getD 0 := by
    funext a; exact fillEntry_doc a
  rw [this]

theorem avgComplexity_fill (l : List AnalysisEntry) :
    avgComplexity (l.map fillEntry) = avgComplexity l := by
  simp only [avgComplexity, List.map_map]
  have : ((fun a : AnalysisEntry => a.complexity_score.getD 0) ∘ fillEntry)
      = fun a => a.complexity_score.getD 0 := by
    funext a; exact fillEntry_cpx a
  rw [this]

theorem countTestFiles_fill (l : List AnalysisEntry) :
    countTestFiles (l.map fillEntry) = countTestFiles l := by
  unfold countTestFiles
  rw [List.countP_map]
  rfl

theorem testCoverage_fill (l : List AnalysisEntry) (n : ℕ) :
    testCoverage (l.map fillEntry) n = testCoverage l n := by
  unfold testCoverage
  rw [countTestFiles_fill]

theorem languageStats_fill (l : List AnalysisEntry) :
    languageStats (l.map fillEntry) = languageStats l := by
  funext lang
  simp only [languageStats, List.filter_map]
  have hc : ((fun a : AnalysisEntry => a.language == lang) ∘ fillEntry)
      = fun a => a.language == lang := rfl
  rw [hc, List.length_map, List.map_map, List.map_map]
  have h1 : ((fun a : AnalysisEntry => a.complexity_score.getD 0) ∘ fillEntry)
      = fun a => a.complexity_score.getD 0 := by
    funext a; exact fillEntry_cpx a
  have h2 : ((fun a : AnalysisEntry => a.documentation_quality.getD 0) ∘ fillEntry)
      = fun a => a.documentation_quality.getD 0 := by
    funext a; exact fillEntry_doc a
  rw [h1, h2]

/-- C10.  Replacing every absent complexity or documentation score by
an explicit 0 leaves `computeMetrics` unchanged: the code's `x || 0`
defaults make the computation total, treating a missing value as 0 in
every aggregate it feeds (the two means, the test count, the
per-language statistics). -/
theorem computeMetrics_fill (l : List AnalysisEntry) (n : ℕ) (q : Option ℚ) :
    computeMetrics (l.map fillEntry) n q = computeMetrics l n q := by
  unfold computeMetrics
  have hm : maintainability (l.map fillEntry) = maintainability l := by
    rw [maintainability, maintainability, docCoverage_fill, avgComplexity_fill]
  have hf : overallFormula (l.map fillEntry) n = overallFormula l n := by
    rw [overallFormula, overallFormula, docCoverage_fill, avgComplexity_fill,
      hm, testCoverage_fill]
  have ho : overallRaw (l.map fillEntry) n q = overallRaw l n q := by
    unfold overallRaw
    cases q with
    | none => exact hf
    | some v => rw [hf]
  have hr : recommendationList (l.map fillEntry) n q
      = recommendationList l n q := by
    unfold recommendationList
    rw [docCoverage_fill, avgComplexity_fill, testCoverage_fill, ho]
  rw [docCoverage_fill, avgComplexity_fill, hm, testCoverage_fill, ho, hr,
    languageStats_fill, List.length_map]

/-! ## File tree lemmas -/

theorem splitOnCharList_ne_nil (sep : Char) (cs : List Char) :
    splitOnCharList sep cs ≠ [] := by
  induction cs with
  | nil => simp [splitOnCharList]
  | cons c rest ih =>
    rw [splitOnCharList]
    split
    · simp
    · cases h : splitOnCharList sep rest <;> simp

theorem splitPath_ne_nil (s : String) : splitPath s ≠ [] := by
  rw [splitPath]
  intro h
  exact splitOnCharList_ne_nil '/' s.data (by simpa using h)

theorem lookupChild_mem {ch : List (String × TreeNode)} {k : String}
    {c : TreeNode} (h : lookupChild ch k = some c) : (k, c) ∈ ch := by
  induction ch with
  | nil => simp [lookupChild] at h
  | cons hd rest ih =>
    obtain ⟨k2, v⟩ := hd
    rw [lookupChild] at h
    by_cases hk : k2 = k
    · rw [if_pos hk] at h
      subst hk
      injection h with h
      subst h
      exact List.mem_cons_self _ _
    · rw [if_neg hk] at h
      exact List.mem_cons_of_mem _ (ih h)

theorem lookupChild_eq_none_iff {ch : List (String × TreeNode)} {k : String} :
    lookupChild ch k = none ↔ k ∉ ch.map Prod.fst := by
  induction ch with
  | nil => simp [lookupChild]
  | cons hd rest ih =>
    obtain ⟨k2, v⟩ := hd
    rw [lookupChild]
    by_cases hk : k2 = k
    · subst hk; simp
    · rw [if_neg hk]
      simp [ih, Ne.symm hk]

theorem setChild_lookup_none {ch : List (String × TreeNode)} {k : String}
    (v : TreeNode) (h : lookupChild ch k = none) :
    setChild ch k v = ch ++ [(k, v)] := by
  induction ch with
  | nil => simp [setChild]
  | cons hd rest ih =>
    obtain ⟨k2, w⟩ := hd
    rw [lookupChild] at h
    by_cases hk : k2 = k
    · rw [if_pos hk] at h; exact absurd h (by simp)
    · rw [if_neg hk] at h
      rw [setChild, if_neg hk, ih h]
      simp

theorem lookupChild_some_decomp {ch : List (String × TreeNode)} {k : String}
    {c : TreeNode} (h : lookupChild ch k = some c) :
    ∃ chA chB, ch = chA ++ (k, c) :: chB ∧ k ∉ chA.map Prod.fst ∧
      ∀ v, setChild ch k v = chA ++ (k, v) :: chB := by
  induction ch with
  | nil => simp [lookupChild] at h
  | cons hd rest ih =>
    obtain ⟨k2, w⟩ := hd
    rw [lookupChild] at h
    by_cases hk : k2 = k
    · rw [if_pos hk] at h
      subst hk
      injection h with h
      subst h
      exact ⟨[], rest, by simp, by simp, fun v => by rw [setChild, if_pos rfl]; rfl⟩
    · rw [if_neg hk] at h
      obtain ⟨chA, chB, hsplit, hnot, hset⟩ := ih h
      refine ⟨(k2, w) :: chA, chB, by rw [hsplit]; rfl, by simp [hnot, Ne.symm hk], fun v => ?_⟩
      rw [setChild, if_neg hk, hset v]
      rfl

theorem filePathsL_append (a b : List (String × TreeNode)) :
    filePathsL (a ++ b) = filePathsL a ++ filePathsL b := by
  induction a with
  | nil => simp [filePathsL]
  | cons hd rest ih =>
    obtain ⟨k, c⟩ := hd
    simp [filePathsL, ih]

theorem folderPathsL_append (a b : List (String × TreeNode)) :
    folderPathsL (a ++ b) = folderPathsL a ++ folderPathsL b := by
  induction a with
  | nil => simp [folderPathsL]
  | cons hd rest ih =>
    obtain ⟨k, c⟩ := hd
    simp [folderPathsL, ih]

theorem mem_filePathsL {ch : List (String × TreeNode)} {k : String}
    {c : TreeNode} {p : List String} (hm : (k, c) ∈ ch)
    (hp : p ∈ filePaths c) : k :: p ∈ filePathsL ch := by
  induction ch with
  | nil => simp at hm
  | cons hd rest ih =>
    obtain ⟨k2, c2⟩ := hd
    rw [filePathsL]
    rcases List.mem_cons.1 hm with heq | hmem
    · injection heq with h1 h2
      subst h1; subst h2
      exact List.mem_append_left _ (List.mem_map.2 ⟨p, hp, rfl⟩)
    · exact List.mem_append_right _ (ih hmem)

theorem mem_folderPathsL {ch : List (String × TreeNode)} {k : String}
    {c : TreeNode} {q : List String} (hm : (k, c) ∈ ch)
    (hq : q ∈ folderPathsAt k c) : q ∈ folderPathsL ch := by
  induction ch with
  | nil => simp at hm
  | cons hd rest ih =>
    obtain ⟨k2, c2⟩ := hd
    rw [folderPathsL]
    rcases List.mem_cons.1 hm with heq | hmem
    · injection heq with h1 h2
      subst h1; subst h2
      exact List.mem_append_left _ hq
    · exact List.mem_append_right _ (ih hmem)

theorem folderPathsAt_heads {k : String} {c : TreeNode} {q : List String}
    (h : q ∈ folderPathsAt k c) : ∃ q2, q = k :: q2 := by
  cases c with
  | file a b cc d e => simp [folderPathsAt] at h
  | folder n2 ch2 =>
    rw [folderPathsAt] at h
    rcases List.mem_cons.1 h with heq | hmem
    · exact ⟨[], heq⟩
    · obtain ⟨q2, _, hq⟩ := List.mem_map.1 hmem
      exact ⟨q2, hq.symm⟩

theorem folderPathsL_heads {ch : List (String × TreeNode)} {q : List String}
    (h : q ∈ folderPathsL ch) :
    ∃ k q2, q = k :: q2 ∧ k ∈ ch.map Prod.fst := by
  induction ch with
  | nil => simp [folderPathsL] at h
  | cons hd rest ih =>
    obtain ⟨k2, c2⟩ := hd
    rw [folderPathsL] at h
    rcases List.mem_append.1 h with hat | hrest
    · obtain ⟨q2, hq⟩ := folderPathsAt_heads hat
      exact ⟨k2, q2, hq, by simp⟩
    · obtain ⟨k, q2, hq, hk⟩ := ih hrest
      exact ⟨k, q2, hq, by simp [hk]⟩

theorem keysOkL_append {a b : List (String × TreeNode)} :
    keysOkL (a ++ b) ↔ keysOkL a ∧ keysOkL b := by
  induction a with
  | nil => simp [keysOkL]
  | cons hd rest ih =>
    obtain ⟨k, c⟩ := hd
    simp [keysOkL, ih, and_assoc]

theorem keysOkL_mem {ch : List (String × TreeNode)} {k : String}
    {c : TreeNode} (h : keysOkL ch) (hm : (k, c) ∈ ch) : keysOk c := by
  induction ch with
  | nil => simp at hm
  | cons hd rest ih =>
    obtain ⟨k2, c2⟩ := hd
    rw [keysOkL] at h
    rcases List.mem_cons.1 hm with heq | hmem
    · injection heq with h1 h2
      subst h2
      exact h.1
    · exact ih h.2 hmem

theorem properPrefixes_mem {q p : List String} (h : q ∈ properPrefixes p) :
    q <+: p ∧ q ≠ p := by
  induction p generalizing q with
  | nil => simp [properPrefixes] at h
  | cons s t ih =>
    cases t with
    | nil => simp [properPrefixes] at h
    | cons s2 t2 =>
      rw [properPrefixes] at h
      rcases List.mem_cons.1 h with heq | hmem
      · subst heq
        refine ⟨⟨s2 :: t2, rfl⟩, by simp⟩
      · obtain ⟨q2, hq2, hq⟩ := List.mem_map.1 hmem
        obtain ⟨hpre, hne⟩ := ih hq2
        subst hq
        exact ⟨List.cons_prefix_cons.2 ⟨rfl, hpre⟩, by simpa using hne⟩

theorem nil_not_mem_folderPathsL {ch : List (String × TreeNode)} :
    [] ∉ folderPathsL ch := by
  intro h
  obtain ⟨k, q2, hq, _⟩ := folderPathsL_heads h
  exact List.cons_ne_nil k q2 hq.symm

theorem folderPathsAt_nodup {k : String} {c : TreeNode}
    (h : (folderPaths c).Nodup) : (folderPathsAt k c).Nodup := by
  cases c with
  | file a b cc d e => simp [folderPathsAt]
  | folder n2 ch2 =>
    rw [folderPathsAt]
    rw [folderPaths] at h
    refine List.nodup_cons.2 ⟨?_, h.map (fun q1 q2 h12 => ?_)⟩
    · intro hmem
      obtain ⟨q, hq, heq⟩ := List.mem_map.1 hmem
      have : q = [] := by
        have := heq
        injection this
      subst this
      exact nil_not_mem_folderPathsL hq
    · injection h12

mutual

theorem foldersNodup : ∀ t : TreeNode, keysOk t → (folderPaths t).Nodup
  | .file a b c d e, _ => by simp [folderPaths]
  | .folder nm ch, h => by
    rw [folderPaths]
    rw [keysOk] at h
    exact foldersNodupL ch h.1 h.2

theorem foldersNodupL : ∀ ch : List (String × TreeNode),
    (ch.map Prod.fst).Nodup → keysOkL ch → (folderPathsL ch).Nodup
  | [], _, _ => by simp [folderPathsL]
  | (k, c) :: rest, hnd, hok => by
    rw [folderPathsL]
    rw [keysOkL] at hok
    have hnd2 : (k :: rest.map Prod.fst).Nodup := by simpa using hnd
    have hk : k ∉ rest.map Prod.fst := (List.nodup_cons.1 hnd2).1
    have hndrest : (rest.map Prod.fst).Nodup := (List.nodup_cons.1 hnd2).2
    refine List.nodup_append.2
      ⟨folderPathsAt_nodup (foldersNodup c hok.1),
        foldersNodupL rest hndrest hok.2, fun q hq hq2 => ?_⟩
    obtain ⟨q2, hqk⟩ := folderPathsAt_heads hq
    obtain ⟨k2, q3, hq3, hk2⟩ := folderPathsL_heads hq2
    rw [hqk] at hq3
    injection hq3 with h1 _
    exact hk (h1 ▸ hk2)

end

theorem filePathsL_setChild {ch : List (String × TreeNode)} {k : String}
    {v : TreeNode} {p : List String}
    (h : p ∈ filePathsL (setChild ch k v)) :
    p ∈ (filePaths v).map (fun q => k :: q) ∨ p ∈ filePathsL ch := by
  induction ch with
  | nil =>
    rw [setChild, filePathsL, filePathsL] at h
    left
    simpa using h
  | cons hd rest ih =>
    obtain ⟨k2, c2⟩ := hd
    rw [setChild] at h
    by_cases hk : k2 = k
    · rw [if_pos hk, filePathsL] at h
      rcases List.mem_append.1 h with hl | hr
      · exact Or.inl hl
      · exact Or.inr (by rw [filePathsL]; exact List.mem_append_right _ hr)
    · rw [if_neg hk, filePathsL] at h
      rcases List.mem_append.1 h with hl | hr
      · exact Or.inr (by rw [filePathsL]; exact List.mem_append_left _ hl)
      · rcases ih hr with h1 | h2
        · exact Or.inl h1
        · exact Or.inr (by rw [filePathsL]; exact List.mem_append_right _ h2)

theorem insertFile_ok : ∀ (parts : List String), parts ≠ [] →
    ∀ (nm : String) (ch : List (String × TreeNode)) (f : FileRecord),
    (∀ p ∈ filePathsL ch, ¬ (p <+: parts ∧ p ≠ parts)) →
    ∃ ch2, insertFile parts (.folder nm ch) f = some (.folder nm ch2) ∧
      ∀ p ∈ filePathsL ch2, p = parts ∨ p ∈ filePathsL ch
  | [], h, _, _, _, _ => absurd rfl h
  | [part], _, nm, ch, f, _ => by
    refine ⟨setChild ch part (.file part f.path f.content f.language f.size),
      by simp only [insertFile], ?_⟩
    intro p hp
    rcases filePathsL_setChild hp with h1 | h2
    · left
      simpa [filePaths] using h1
    · right; exact h2
  | part :: p2 :: rest, _, nm, ch, f, hfl => by
    cases hl : lookupChild ch part with
    | some c =>
      cases c with
      | file a b cc d e =>
        exfalso
        have hm : [part] ∈ filePathsL ch :=
          mem_filePathsL (lookupChild_mem hl) (by simp [filePaths])
        exact hfl _ hm ⟨by simp, by simp⟩
      | folder n2 ch2 =>
        have hfl2 : ∀ p ∈ filePathsL ch2,
            ¬ (p <+: (p2 :: rest) ∧ p ≠ p2 :: rest) := by
          intro p hp hcon
          have hm : part :: p ∈ filePathsL ch :=
            mem_filePathsL (lookupChild_mem hl) (by rw [filePaths]; exact hp)
          exact hfl _ hm
            ⟨List.cons_prefix_cons.2 ⟨rfl, hcon.1⟩, by simpa using hcon.2⟩
        obtain ⟨ch2', hins, hsub⟩ :=
          insertFile_ok (p2 :: rest) (by simp) n2 ch2 f hfl2
        refine ⟨setChild ch part (.folder n2 ch2'), ?_, ?_⟩
        · simp only [insertFile, hl, Option.getD_some]
          rw [hins]
          rfl
        · intro p hp
          rcases filePathsL_setChild hp with h1 | h2
          · obtain ⟨p2, hp2, heq⟩ := List.mem_map.1 h1
            rw [filePaths] at hp2
            rcases hsub p2 hp2 with he | hm
            · left; rw [← heq, he]
            · right
              rw [← heq]
              exact mem_filePathsL (lookupChild_mem hl)
                (by rw [filePaths]; exact hm)
          · right; exact h2
    | none =>
      obtain ⟨ch2', hins, hsub⟩ :=
        insertFile_ok (p2 :: rest) (by simp) part [] f
          (by intro p hp; simp [filePathsL] at hp)
      refine ⟨setChild ch part (.folder part ch2'), ?_, ?_⟩
      · simp only [insertFile, hl, Option.getD_none]
        rw [hins]
        rfl
      · intro p hp
        rcases filePathsL_setChild hp with h1 | h2
        · obtain ⟨p2, hp2, heq⟩ := List.mem_map.1 h1
          rw [filePaths] at hp2
          rcases hsub p2 hp2 with he | hm
          · left; rw [← heq, he]
          · exfalso; simp [filePathsL] at hm
        · right; exact h2

theorem buildOk_aux : ∀ (fs U : List FileRecord) (nm : String)
    (ch : List (String × TreeNode)),
    (∀ g ∈ U, ∀ f ∈ U,
      ¬ (splitPath g.path <+: splitPath f.path ∧
        splitPath g.path ≠ splitPath f.path)) →
    (∀ f ∈ fs, f ∈ U) →
    (∀ p ∈ filePathsL ch, ∃ g ∈ U, p = splitPath g.path) →
    ∃ ch2, fs.foldlM (fun t f => insertFile (splitPath f.path) t f)
        (TreeNode.folder nm ch) = some (.folder nm ch2) ∧
      ∀ p ∈ filePathsL ch2, ∃ g ∈ U, p = splitPath g.path
  | [], _, nm, ch, _, _, hch => ⟨ch, by simp, hch⟩
  | f :: fs, U, nm, ch, hU, hfs, hch => by
    have hf : f ∈ U := hfs f (List.mem_cons_self _ _)
    obtain ⟨ch2, hins, hsub⟩ :=
      insertFile_ok (splitPath f.path) (splitPath_ne_nil _) nm ch f
        (by
          intro p hp hcon
          obtain ⟨g, hg, hpg⟩ := hch p hp
          exact hU g hg f hf ⟨hpg ▸ hcon.1, hpg ▸ hcon.2⟩)
    have hch2 : ∀ p ∈ filePathsL ch2, ∃ g ∈ U, p = splitPath g.path := by
      intro p hp
      rcases hsub p hp with he | hm
      · exact ⟨f, hf, he⟩
      · exact hch p hm
    obtain ⟨ch3, hfold, hch3⟩ :=
      buildOk_aux fs U nm ch2 hU (fun g hg => hfs g (List.mem_cons_of_mem _ hg))
        hch2
    exact ⟨ch3, by rw [List.foldlM_cons, hins]; simpa using hfold, hch3⟩

/-- C4 counterexample.  The claim says `buildTree` always succeeds,
including when one file's full path is a proper prefix of another
file's path.  On input [path "a", path "a/b"] the insertion walk for
"a/b" lands on the file node "a" and dereferences its missing
`children` property: a TypeError.  The translated builder returns
`none` (the thrown error). -/
theorem buildFileTree_prefix_throws :
    buildFileTree [⟨"a", "", "javascript", 1⟩, ⟨"a/b", "", "javascript", 1⟩]
      = none := rfl

/-- C4 amended.  `buildTree` succeeds on the empty input, returning the
bare root, and succeeds on every input whose paths are free of proper
prefix relations (duplicate paths remain allowed); inputs where one
file's segment path is a proper prefix of another's can throw, as the
counterexample shows. -/
theorem buildFileTree_total :
    buildFileTree [] = some (.folder "root" []) ∧
    ∀ files : List FileRecord, PrefixFree files →
      (buildFileTree files).isSome := by
  refine ⟨rfl, fun files h => ?_⟩
  obtain ⟨ch2, heq, _⟩ :=
    buildOk_aux files files "root" [] h (fun f hf => hf)
      (by intro p hp; simp [filePathsL] at hp)
  rw [buildFileTree, heq]
  rfl

/-- C4 witness: the builder succeeds on a concrete prefix-free list
with a duplicate path. -/
theorem buildFileTree_total_witness :
    (buildFileTree [⟨"src/index.js", "", "javascript", 1⟩,
      ⟨"src/utils/math.js", "", "javascript", 1⟩,
      ⟨"src/index.js", "x", "javascript", 2⟩]).isSome :=
  buildFileTree_total.2 _ (by unfold PrefixFree; decide)

theorem mem_map_split_iff {α β : Type} {f : α → β} {l1 l2 l3 : List α}
    (h : ∀ b, b ∈ l1 ↔ b ∈ l2 ∨ b ∈ l3) (q : β) :
    q ∈ l1.map f ↔ q ∈ l2.map f ∨ q ∈ l3.map f := by
  simp only [List.mem_map]
  constructor
  · rintro ⟨b, hb, rfl⟩
    rcases (h b).1 hb with h2 | h3
    · exact Or.inl ⟨b, h2, rfl⟩
    · exact Or.inr ⟨b, h3, rfl⟩
  · rintro (⟨b, hb, rfl⟩ | ⟨b, hb, rfl⟩)
    · exact ⟨b, (h b).2 (Or.inl hb), rfl⟩
    · exact ⟨b, (h b).2 (Or.inr hb), rfl⟩

theorem insertFile_spec : ∀ (parts : List String), parts ≠ [] →
    ∀ (nm : String) (ch : List (String × TreeNode)) (f : FileRecord),
    keysOk (.folder nm ch) →
    (∀ p ∈ filePathsL ch, ¬ p <+: parts ∧ ¬ parts <+: p) →
    parts ∉ folderPathsL ch →
    ∃ ch2, insertFile parts (.folder nm ch) f = some (.folder nm ch2) ∧
      keysOk (.folder nm ch2) ∧
      (filePathsL ch2).Perm (parts :: filePathsL ch) ∧
      ∀ q, q ∈ folderPathsL ch2 ↔
        q ∈ folderPathsL ch ∨ q ∈ properPrefixes parts
  | [], h, _, _, _, _, _, _ => absurd rfl h
  | [part], _, nm, ch, f, hkeys, hfl, hfo => by
    rw [keysOk] at hkeys
    have hnone : lookupChild ch part = none := by
      cases hl : lookupChild ch part with
      | none => rfl
      | some c =>
        exfalso
        cases c with
        | file a b cc d e =>
          have hm : [part] ∈ filePathsL ch :=
            mem_filePathsL (lookupChild_mem hl) (by simp [filePaths])
          exact (hfl _ hm).1 (List.prefix_refl _)
        | folder n2 ch2 =>
          exact hfo (mem_folderPathsL (lookupChild_mem hl)
            (by rw [folderPathsAt]; exact List.mem_cons_self _ _))
    refine ⟨ch ++ [(part, .file part f.path f.content f.language f.size)],
      ?_, ?_, ?_, ?_⟩
    · simp only [insertFile, setChild_lookup_none _ hnone]
    · rw [keysOk]
      constructor
      · rw [List.map_append]
        refine List.nodup_append.2 ⟨hkeys.1, by simp, ?_⟩
        intro a ha hb
        simp only [List.map_cons, List.map_nil, List.mem_singleton] at hb
        subst hb
        exact lookupChild_eq_none_iff.1 hnone ha
      · exact keysOkL_append.2 ⟨hkeys.2, by simp [keysOkL, keysOk]⟩
    · rw [filePathsL_append]
      have hx : filePathsL
          [(part, TreeNode.file part f.path f.content f.language f.size)]
          = [[part]] := by simp [filePathsL, filePaths]
      rw [hx]
      exact List.perm_append_singleton _ _
    · intro q
      rw [folderPathsL_append]
      simp [folderPathsL, folderPathsAt, properPrefixes]
  | part :: p2 :: rest, _, nm, ch, f, hkeys, hfl, hfo => by
    rw [keysOk] at hkeys
    cases hl : lookupChild ch part with
    | some c =>
      cases c with
      | file a b cc d e =>
        exfalso
        have hm : [part] ∈ filePathsL ch :=
          mem_filePathsL (lookupChild_mem hl) (by simp [filePaths])
        exact (hfl _ hm).1 (by simp)
      | folder n2 ch2 =>
        have hmemc := lookupChild_mem hl
        have hkc : keysOk (.folder n2 ch2) := keysOkL_mem hkeys.2 hmemc
        have hfl2 : ∀ p ∈ filePathsL ch2,
            ¬ p <+: (p2 :: rest) ∧ ¬ (p2 :: rest) <+: p := by
          intro p hp
          have hm : part :: p ∈ filePathsL ch :=
            mem_filePathsL hmemc (by rw [filePaths]; exact hp)
          obtain ⟨h1, h2⟩ := hfl _ hm
          exact ⟨fun hp2 => h1 (List.cons_prefix_cons.2 ⟨rfl, hp2⟩),
            fun hp2 => h2 (List.cons_prefix_cons.2 ⟨rfl, hp2⟩)⟩
        have hfo2 : (p2 :: rest) ∉ folderPathsL ch2 := by
          intro hmem
          exact hfo (mem_folderPathsL hmemc
            (by
              rw [folderPathsAt]
              exact List.mem_cons_of_mem _ (List.mem_map.2 ⟨_, hmem, rfl⟩)))
        obtain ⟨ch2', hins, hkeys', hperm', hfo'⟩ :=
          insertFile_spec (p2 :: rest) (by simp) n2 ch2 f hkc hfl2 hfo2
        obtain ⟨chA, chB, hsplit, hnotA, hset⟩ := lookupChild_some_decomp hl
        refine ⟨chA ++ (part, .folder n2 ch2') :: chB, ?_, ?_, ?_, ?_⟩
        · simp only [insertFile, hl, Option.getD_some]
          rw [hins]
          simp [hset]
        · rw [keysOk]
          rw [hsplit] at hkeys
          have h1 := keysOkL_append.1 hkeys.2
          have h2 := h1.2
          rw [keysOkL] at h2
          constructor
          · have hmapnew :
                (chA ++ (part, TreeNode.folder n2 ch2') :: chB).map Prod.fst
                = (chA ++ (part, TreeNode.folder n2 ch2) :: chB).map
                    Prod.fst := by simp
            rw [hmapnew]
            exact hkeys.1
          · refine keysOkL_append.2 ⟨h1.1, ?_⟩
            rw [keysOkL]
            exact ⟨hkeys', h2.2⟩
        · rw [hsplit]
          rw [filePathsL_append, filePathsL_append, filePathsL, filePathsL,
            filePaths, filePaths]
          have h1 : ((filePathsL ch2').map (fun p => part :: p)).Perm
              ((part :: p2 :: rest) ::
                (filePathsL ch2).map (fun p => part :: p)) := by
            have hm := hperm'.map (fun p => part :: p)
            simpa using hm
          exact ((h1.append_right (filePathsL chB)).append_left
            (filePathsL chA)).trans List.perm_middle
        · intro q
          rw [hsplit]
          rw [folderPathsL_append, folderPathsL_append, folderPathsL,
            folderPathsL, folderPathsAt, folderPathsAt, properPrefixes]
          rw [List.mem_append, List.mem_append, List.mem_append,
            List.mem_append, List.mem_cons, List.mem_cons, List.mem_cons,
            mem_map_split_iff hfo' q]
          tauto
    | none =>
      obtain ⟨ch2', hins, hkeys', hperm', hfo'⟩ :=
        insertFile_spec (p2 :: rest) (by simp) part [] f
          (by simp [keysOk, keysOkL])
          (by intro p hp; simp [filePathsL] at hp)
          (by simp [folderPathsL])
      refine ⟨ch ++ [(part, .folder part ch2')], ?_, ?_, ?_, ?_⟩
      · simp only [insertFile, hl, Option.getD_none]
        rw [hins]
        simp [setChild_lookup_none _ hl]
      · rw [keysOk]
        constructor
        · rw [List.map_append]
          refine List.nodup_append.2 ⟨hkeys.1, by simp, ?_⟩
          intro a ha hb
          simp only [List.map_cons, List.map_nil, List.mem_singleton] at hb
          subst hb
          exact lookupChild_eq_none_iff.1 hl ha
        · refine keysOkL_append.2 ⟨hkeys.2, ?_⟩
          rw [keysOkL]
          exact ⟨hkeys', trivial⟩
      · rw [filePathsL_append, filePathsL, filePaths]
        have h1 : ((filePathsL ch2').map (fun p => part :: p)).Perm
            [part :: p2 :: rest] := by
          have hm := hperm'.map (fun p => part :: p)
          simpa [filePathsL] using hm
        have h2 : (filePathsL ch ++
            ((filePathsL ch2').map (fun p => part :: p) ++ filePathsL [])).Perm
            (filePathsL ch ++ [part :: p2 :: rest]) := by
          simpa [filePathsL] using h1.append_left (filePathsL ch)
        exact h2.trans (List.perm_append_singleton _ _)
      · intro q
        have hfo2 : ∀ b, b ∈ folderPathsL ch2' ↔
            b ∈ ([] : List (List String)) ∨ b ∈ properPrefixes (p2 :: rest) := by
          intro b
          simpa [folderPathsL] using hfo' b
        rw [folderPathsL_append, folderPathsL, folderPathsAt, folderPathsL,
          properPrefixes]
        rw [List.mem_append, List.mem_append, List.mem_cons, List.mem_cons,
          mem_map_split_iff hfo2 q]
        simp only [List.map_nil, List.not_mem_nil, false_or]
        tauto

theorem buildCount_aux : ∀ (fs : List FileRecord) (nm : String)
    (ch : List (String × TreeNode)) (done : List (List String)),
    keysOk (.folder nm ch) →
    (filePathsL ch).Perm done →
    (∀ q, q ∈ folderPathsL ch ↔ q ∈ done.flatMap properPrefixes) →
    ((done ++ fs.map fun g => splitPath g.path).Pairwise
      fun p q => ¬ p <+: q ∧ ¬ q <+: p) →
    ∃ ch2, fs.foldlM (fun t g => insertFile (splitPath g.path) t g)
        (TreeNode.folder nm ch) = some (.folder nm ch2) ∧
      keysOk (.folder nm ch2) ∧
      (filePathsL ch2).Perm (done ++ fs.map fun g => splitPath g.path) ∧
      ∀ q, q ∈ folderPathsL ch2 ↔
        q ∈ (done ++ fs.map fun g => splitPath g.path).flatMap properPrefixes
  | [], nm, ch, done, hkeys, hperm, hfo, _ =>
    ⟨ch, by simp, hkeys, by simpa using hperm, by simpa using hfo⟩
  | g :: fs, nm, ch, done, hkeys, hperm, hfo, hpair => by
    have hpair1 : (done ++ splitPath g.path ::
        (fs.map fun x => splitPath x.path)).Pairwise
        fun p q => ¬ p <+: q ∧ ¬ q <+: p := by simpa using hpair
    have hdp : ∀ p ∈ done,
        ¬ p <+: splitPath g.path ∧ ¬ splitPath g.path <+: p := by
      intro p hp
      exact (List.pairwise_append.1 hpair1).2.2 p hp (splitPath g.path)
        (List.mem_cons_self _ _)
    have hfl : ∀ p ∈ filePathsL ch,
        ¬ p <+: splitPath g.path ∧ ¬ splitPath g.path <+: p :=
      fun p hp => hdp p (hperm.mem_iff.1 hp)
    have hfo1 : splitPath g.path ∉ folderPathsL ch := by
      intro hmem
      obtain ⟨d, hd, hpp⟩ := List.mem_flatMap.1 ((hfo _).1 hmem)
      exact (hdp d hd).2 (properPrefixes_mem hpp).1
    obtain ⟨ch2, hins, hkeys2, hperm2, hfo2⟩ :=
      insertFile_spec (splitPath g.path) (splitPath_ne_nil _) nm ch g hkeys
        hfl hfo1
    have hperm3 : (filePathsL ch2).Perm (done ++ [splitPath g.path]) :=
      hperm2.trans ((hperm.cons _).trans
        (List.perm_append_singleton _ _).symm)
    have hfo3 : ∀ q, q ∈ folderPathsL ch2 ↔
        q ∈ (done ++ [splitPath g.path]).flatMap properPrefixes := by
      intro q
      rw [hfo2 q, hfo q]
      simp
    have hpair3 : (((done ++ [splitPath g.path]) ++
        fs.map fun x => splitPath x.path).Pairwise
        fun p q => ¬ p <+: q ∧ ¬ q <+: p) := by
      have he : (done ++ [splitPath g.path]) ++
          (fs.map fun x => splitPath x.path) =
          done ++ splitPath g.path :: (fs.map fun x => splitPath x.path) := by
        simp
      rw [he]
      exact hpair1
    obtain ⟨ch3, hfold, hkeys3, hperm4, hfo4⟩ :=
      buildCount_aux fs nm ch2 (done ++ [splitPath g.path]) hkeys2 hperm3
        hfo3 hpair3
    have he : (done ++ [splitPath g.path]) ++
        (fs.map fun x => splitPath x.path) =
        done ++ ((g :: fs).map fun x => splitPath x.path) := by
      simp
    refine ⟨ch3, ?_, hkeys3, ?_, ?_⟩
    · rw [List.foldlM_cons, hins]
      simpa using hfold
    · exact he ▸ hperm4
    · exact he ▸ hfo4

/-- C6 counterexample.  The claim quantifies over every input list of
size N; two files with the same path "a" collapse to a single leaf
(last write wins), so the tree has 1 reachable leaf, not 2. -/
theorem buildFileTree_duplicate_collapses :
    (buildFileTree [⟨"a", "", "javascript", 1⟩,
        ⟨"a", "x", "javascript", 2⟩]).map (fun t => (filePaths t).length)
      = some 1 ∧
    ([⟨"a", "", "javascript", 1⟩, ⟨"a", "x", "javascript", 2⟩] :
      List FileRecord).length = 2 := ⟨rfl, rfl⟩

/-- C6 amended.  For every input whose segment paths are pairwise
prefix-incomparable (no duplicates and no proper prefix relations - the
inputs on which `buildTree` is defined and loses nothing), the built
tree has exactly N reachable file leaves for N input files, and the
number of non-root folder nodes equals the number of distinct proper
path prefixes of the input paths. -/
theorem buildTree_counts (files : List FileRecord)
    (h : SeparatedPaths files) :
    ∃ t, buildFileTree files = some t ∧
      (filePaths t).length = files.length ∧
      (folderPaths t).length =
        (files.flatMap fun g =>
          properPrefixes (splitPath g.path)).dedup.length := by
  obtain ⟨ch2, hfold, hkeys, hperm, hfo⟩ :=
    buildCount_aux files "root" [] []
      (by simp [keysOk, keysOkL])
      (by simp [filePathsL])
      (by simp [folderPathsL])
      (by simpa [SeparatedPaths] using h)
  refine ⟨.folder "root" ch2, ?_, ?_, ?_⟩
  · rw [buildFileTree]
    exact hfold
  · rw [filePaths]
    simpa using hperm.length_eq
  · rw [folderPaths]
    have hnd : (folderPathsL ch2).Nodup := by
      have hn := foldersNodup (.folder "root" ch2) hkeys
      rw [folderPaths] at hn
      exact hn
    have hiff : ∀ q, q ∈ folderPathsL ch2 ↔
        q ∈ files.flatMap fun g => properPrefixes (splitPath g.path) := by
      intro q
      rw [hfo q]
      simp only [List.nil_append, List.mem_flatMap, List.mem_map]
      constructor
      · rintro ⟨d, ⟨g2, hg2, rfl⟩, hq⟩
        exact ⟨g2, hg2, hq⟩
      · rintro ⟨g2, hg2, hq⟩
        exact ⟨splitPath g2.path, ⟨g2, hg2, rfl⟩, hq⟩
    have h1 : (folderPathsL ch2).toFinset =
        (files.flatMap fun g => properPrefixes (splitPath g.path)).toFinset := by
      apply Finset.ext
      intro q
      simp only [List.mem_toFinset]
      exact hiff q
    calc (folderPathsL ch2).length
        = (folderPathsL ch2).dedup.length := by rw [hnd.dedup]
      _ = (folderPathsL ch2).toFinset.card := (List.card_toFinset _).symm
      _ = (files.flatMap fun g =>
            properPrefixes (splitPath g.path)).toFinset.card := by rw [h1]
      _ = (files.flatMap fun g =>
            properPrefixes (splitPath g.path)).dedup.length :=
          List.card_toFinset _

/-- C6 witness: the spec's own scenario - two files under "src", one in
a nested "utils" folder - yields 2 leaves and 2 distinct folders. -/
theorem buildTree_counts_witness :
    ∃ t, buildFileTree [⟨"src/index.js", "", "javascript", 1⟩,
        ⟨"src/utils/math.js", "", "javascript", 1⟩] = some t ∧
      (filePaths t).length = ([⟨"src/index.js", "", "javascript", 1⟩,
        ⟨"src/utils/math.js", "", "javascript", 1⟩] :
          List FileRecord).length ∧
      (folderPaths t).length =
        (([⟨"src/index.js", "", "javascript", 1⟩,
          ⟨"src/utils/math.js", "", "javascript", 1⟩] :
            List FileRecord).flatMap fun g =>
          properPrefixes (splitPath g.path)).dedup.length :=
  buildTree_counts _ (by unfold SeparatedPaths; decide)

end GitDoc
